import Mathlib

/-!
Verification of the picup image intake service against its specification.

The development shallowly embeds the core of the repository:
- src/src/db.py      : the HashDB sqlite index store (hash PRIMARY KEY, rel_path, phash)
- src/src/utils.py   : path/thumbnail helpers and filename sanitization
- src/src/main.py    : the upload handler, similarity search and the startup scan

Paths and file contents are modelled as strings (lists of characters), the
sqlite table as an association list kept in insertion (rowid) order, and the
external image library (PIL, imagehash) as explicit function parameters:
a perceptual-hash function returns an optional string, where none models a
decode failure (PIL raising an exception).
-/

deriving instance DecidableEq for Except

namespace Picup

/-! ## Path helpers (model of the pathlib operations used by utils.py)

pathlib splits a path at the last slash into parent and name, and a name at
the last dot into stem and suffix; the suffix is empty when the dot is the
first or last character of the name.
-/

/-- Index of the last occurrence of a character in a list, if any. -/
def lastIdxOf (c : Char) : List Char → Option Nat
  | [] => none
  | a :: as =>
    match lastIdxOf c as with
    | some i => some (i + 1)
    | none => if a == c then some 0 else none

/-- Model of pathlib PurePath.suffix on a file name (a component with no slash):
the extension from the last dot, empty when the dot is leading or trailing. -/
def pathSuffix (name : List Char) : List Char :=
  match lastIdxOf '.' name with
  | none => []
  | some i => if 0 < i ∧ i + 1 < name.length then name.drop i else []

/-- Model of pathlib PurePath.with_suffix on a file name: replace the current
suffix (as computed by pathSuffix) with the given one. -/
def withSuffix (name newSuf : List Char) : List Char :=
  match lastIdxOf '.' name with
  | none => name ++ newSuf
  | some i => if 0 < i ∧ i + 1 < name.length then name.take i ++ newSuf else name ++ newSuf

/-- Split a path at the last slash: (directory part including the slash, name). -/
def splitLastSlash (p : List Char) : List Char × List Char :=
  match lastIdxOf '/' p with
  | none => ([], p)
  | some i => (p.take (i + 1), p.drop (i + 1))

/-- Characters of the literal extension ".png". -/
def pngExt : List Char := ['.', 'p', 'n', 'g']

/-- Model of rel_path.with_suffix(rel_path.suffix + ".png") from
utils.get_thumb_path, applied to a storage-relative path. pathlib raises
ValueError when the final component is empty, modelled as none. -/
def withPngSuffix (p : List Char) : Option (List Char) :=
  let dn := splitLastSlash p
  if dn.2 = [] then none
  else some (dn.1 ++ withSuffix dn.2 (pathSuffix dn.2 ++ pngExt))

/-- Boolean test that the first list is an initial segment of the second. -/
def listStartsWith : List Char → List Char → Bool
  | [], _ => true
  | _ :: _, [] => false
  | a :: as, b :: bs => a == b && listStartsWith as bs

/-- Model of pathlib PurePath.relative_to for the case the service uses: the
image path lies strictly below the root, so the root plus a slash is a prefix. -/
def relative_to (img root : String) : Option String :=
  if listStartsWith (root.data ++ ['/']) img.data then
    some (String.mk (img.data.drop (root.data.length + 1)))
  else none

/-- Embedding of utils.get_thumb_path: mirror the storage-relative path under
the thumbnail root, appending a png suffix to the existing suffix. -/
def get_thumb_path (imgPath picRoot thumbRoot : String) : Option String :=
  match relative_to imgPath picRoot with
  | none => none
  | some rel =>
    match withPngSuffix rel.data with
    | none => none
    | some l => some (String.mk (thumbRoot.data ++ '/' :: l))

/-- Suffix (extension) of the final component of a path, as a string; model of
pathlib Path(p).suffix used by the scan via file.suffix. -/
def suffixOf (p : String) : String :=
  String.mk (pathSuffix (splitLastSlash p.data).2)

/-! ## Index store (embedding of src/src/db.py)

The sqlite table images(hash TEXT PRIMARY KEY, rel_path TEXT NOT NULL, phash TEXT)
is an association list of rows in insertion order; the PRIMARY KEY constraint
makes a plain INSERT of an existing hash fail with an IntegrityError, modelled
as an error result that leaves the table unchanged.
-/

/-- A row of the images table: (hash, rel_path, phash). -/
structure HashDB where
  rows : List (String × String × Option String)
deriving DecidableEq

/-- Embedding of HashDB.get: SELECT rel_path FROM images WHERE hash = ?. -/
def HashDB.get (db : HashDB) (hashVal : String) : Option String :=
  (db.rows.find? (fun r => r.1 == hashVal)).map (fun r => r.2.1)

/-- Embedding of HashDB.add: INSERT INTO images (hash, rel_path, phash) VALUES (?,?,?).
The hash column is the primary key, so inserting an existing hash raises
sqlite3.IntegrityError (error result); otherwise the row is appended. -/
def HashDB.add (db : HashDB) (hashVal relPath : String) (phash : Option String) :
    Except Unit HashDB :=
  if db.rows.any (fun r => r.1 == hashVal) then .error ()
  else .ok ⟨db.rows ++ [(hashVal, relPath, phash)]⟩

/-- Embedding of HashDB.get_phash_by_path: SELECT phash FROM images WHERE rel_path = ?;
the Python route returns None both when no row matches and when the stored
phash is NULL. -/
def HashDB.get_phash_by_path (db : HashDB) (relPath : String) : Option String :=
  (db.rows.find? (fun r => r.2.1 == relPath)).bind (fun r => r.2.2)

/-- Embedding of HashDB.get_all_phashes: SELECT phash, rel_path FROM images
WHERE phash IS NOT NULL, in rowid (insertion) order. -/
def HashDB.get_all_phashes (db : HashDB) : List (String × String) :=
  db.rows.filterMap (fun r => r.2.2.map (fun ph => (ph, r.2.1)))

/-- The primary key invariant: at most one row per content hash. -/
def HashDB.wf (db : HashDB) : Prop :=
  (db.rows.map (fun r => r.1)).Nodup

/-! ## utils.py: extension allow-list and filename sanitization -/

/-- ASCII lowercasing of a string, modelling str.lower on the extensions that
reach is_allowed_ext (ASCII file suffixes). -/
def strToLower (s : String) : String :=
  String.mk (s.data.map Char.toLower)

/-- Embedding of utils.is_allowed_ext: the lowercased extension must be one of
.jpg .png .gif .webp (the values of ALLOWED_IMAGE_TYPES). -/
def is_allowed_ext (ext : String) : Bool :=
  strToLower ext == ".jpg" || strToLower ext == ".png" ||
    strToLower ext == ".gif" || strToLower ext == ".webp"

/-- Embedding of os.path.basename: everything after the last slash. -/
def basename (p : List Char) : List Char :=
  (splitLastSlash p).2

/-- The character class kept by re.sub(r"[^\w\d_.()-]", "_", base): word
characters (the predicate w abstracts the Unicode \w class), digits,
underscore, dot, parentheses and dash. -/
def keepChar (w : Char → Bool) (c : Char) : Bool :=
  w c || c.isDigit || c == '_' || c == '.' || c == '(' || c == ')' || c == '-'

/-- Embedding of the re.sub call in sanitize_filename: every character outside
the kept class becomes an underscore. -/
def subUnderscore (w : Char → Bool) (l : List Char) : List Char :=
  l.map (fun c => if keepChar w c then c else '_')

/-- Embedding of os.path.splitext on a slash-free name: split at the last dot
unless every character before that dot is itself a dot (leading dots). -/
def splitext (p : List Char) : List Char × List Char :=
  match lastIdxOf '.' p with
  | none => (p, [])
  | some i =>
    if (p.take i).any (fun c => !(c == '.')) then (p.take i, p.drop i) else (p, [])

/-- Embedding of utils.sanitize_filename. The Unicode word-character class of
the regex is abstracted as w, str.lower as lower, and the fresh uuid4 value as
the uuid parameter (a concrete call draws a fresh hex-and-dash string). -/
def sanitize_filename (w : Char → Bool) (lower : Char → Char) (uuid : List Char)
    (original : List Char) : List Char :=
  let base := basename original
  let base := subUnderscore w base
  let base := base.map lower
  let se := splitext base
  se.1 ++ '-' :: uuid ++ se.2

/-! ## Content hashing (main.py file_hash_bytes / imagehash)

file_hash_bytes is a sha256 hex digest, abstracted below as a function
parameter of the scan and the upload handler. The perceptual hashes are
64-bit signatures serialized as hex strings; imagehash.hex_to_hash parses the
hex string and the subtraction of two hashes counts differing bits.
-/

/-- Value of one hexadecimal digit (other characters map to 0; imagehash only
ever stores valid hex strings). -/
def hexVal (c : Char) : Nat :=
  if 48 ≤ c.toNat ∧ c.toNat ≤ 57 then c.toNat - 48
  else if 97 ≤ c.toNat ∧ c.toNat ≤ 102 then c.toNat - 87
  else if 65 ≤ c.toNat ∧ c.toNat ≤ 70 then c.toNat - 55
  else 0

/-- Parse a hex string into a natural number; model of imagehash.hex_to_hash
viewed as the bit vector it denotes. -/
def hexToNat (s : String) : Nat :=
  s.data.foldl (fun acc c => 16 * acc + hexVal c) 0

/-- Number of set bits, computed with a structural fuel argument so that it
evaluates by kernel reduction. -/
def popCountAux : Nat → Nat → Nat
  | 0, _ => 0
  | fuel + 1, n => if n = 0 then 0 else n % 2 + popCountAux fuel (n / 2)

/-- Population count of a natural number (the fuel n suffices since n halves
at every step). -/
def popCount (n : Nat) : Nat :=
  popCountAux n n

/-- Hamming distance between two bit vectors represented as naturals; model of
the imagehash subtraction operator (count of differing bits). -/
def hammingDist (a b : Nat) : Nat :=
  popCount (a ^^^ b)

/-! ## Similarity search (main.py find_similar_to) -/

/-- The loop body of find_similar_to: skip the seed row, keep rows at Hamming
distance at most 10 (the hard-coded threshold), in table order. -/
def similarLoop (q : Nat) (relPath : String) : List (String × String) → List (Nat × String)
  | [] => []
  | (ph, rel) :: rest =>
    if rel == relPath then similarLoop q relPath rest
    else
      if hammingDist q (hexToNat ph) ≤ 10 then
        (hammingDist q (hexToNat ph), rel) :: similarLoop q relPath rest
      else similarLoop q relPath rest

/-- Ascending order on (distance, path) pairs: the order used by the Python
results.sort() on tuples of an int and a string. -/
def tupleLe (a b : Nat × String) : Prop :=
  a.1 < b.1 ∨ (a.1 = b.1 ∧ a.2 ≤ b.2)

instance : DecidableRel tupleLe := fun a b =>
  inferInstanceAs (Decidable (a.1 < b.1 ∨ (a.1 = b.1 ∧ a.2 ≤ b.2)))

instance : IsTotal (Nat × String) tupleLe where
  total a b := by
    rcases Nat.lt_trichotomy a.1 b.1 with h | h | h
    · exact Or.inl (Or.inl h)
    · rcases le_total a.2 b.2 with h2 | h2
      · exact Or.inl (Or.inr ⟨h, h2⟩)
      · exact Or.inr (Or.inr ⟨h.symm, h2⟩)
    · exact Or.inr (Or.inl h)

instance : IsTrans (Nat × String) tupleLe where
  trans a b c hab hbc := by
    rcases hab with hab | ⟨hab1, hab2⟩
    · rcases hbc with hbc | ⟨hbc1, hbc2⟩
      · exact Or.inl (hab.trans hbc)
      · exact Or.inl (hbc1 ▸ hab)
    · rcases hbc with hbc | ⟨hbc1, hbc2⟩
      · exact Or.inl (hab1 ▸ hbc)
      · exact Or.inr ⟨hab1.trans hbc1, hab2.trans hbc2⟩

/-- Embedding of the find_similar_to route: look up the perceptual hash of the
seed path (a falsy value, None or the empty string, yields the 404 branch,
modelled as an error; the str(Path(path)) normalization is the identity on the
already-normalized relative paths the store holds and is elided), compare
against every stored perceptual hash and sort
the retained (distance, path) pairs ascending. Python list.sort and insertion
sort agree here: both produce the sorted permutation, which is unique because
tupleLe is a total, antisymmetric order. -/
def find_similar_to (db : HashDB) (path : String) : Except Unit (List (Nat × String)) :=
  match db.get_phash_by_path path with
  | none => .error ()
  | some ph =>
    if ph == "" then .error ()
    else .ok (List.insertionSort tupleLe (similarLoop (hexToNat ph) path db.get_all_phashes))

/-! ## Thumbnail cache (utils.ensure_thumbnail)

The filesystem is a finite map from paths to file contents. The PIL pipeline
Image.open / thumbnail / save is abstracted as a render parameter acting on
the source bytes; save writes directly to the final thumbnail path, so a
failure during encoding is modelled as leaving the bytes written so far at
that path, and a decode failure before the save leaves nothing.
-/

/-- A flat filesystem: list of (path, contents), newest binding first. -/
structure FS where
  files : List (String × String)
deriving DecidableEq

/-- Contents stored at a path, if any. -/
def FS.read (fs : FS) (p : String) : Option String :=
  (fs.files.find? (fun e => e.1 == p)).map (fun e => e.2)

/-- Model of Path.exists for the thumbnail check. -/
def FS.existsFile (fs : FS) (p : String) : Bool :=
  (fs.read p).isSome

/-- Create or overwrite a file. -/
def FS.write (fs : FS) (p c : String) : FS :=
  ⟨(p, c) :: fs.files⟩

/-- Outcome of the PIL decode-resize-encode pipeline applied to source bytes:
success with the encoded thumbnail bytes, failure after some bytes were
already written to the destination, or failure before any write (for example
a decode error in Image.open). -/
inductive RenderOutcome where
  | ok (bytes : String)
  | failAfterWrite (bytes : String)
  | failBeforeWrite
deriving DecidableEq

/-- Embedding of utils.ensure_thumbnail: return the mirrored thumbnail path if
the thumbnail already exists; otherwise open the source, render and save
directly to the thumbnail path. Exceptions (missing source, ValueError from
get_thumb_path, decode or encode failure) propagate as an error result;
mkdir of intermediate directories is not represented in the flat filesystem. -/
def ensure_thumbnail (render : String → RenderOutcome) (fs : FS)
    (imgPath picRoot thumbRoot : String) : FS × Except Unit String :=
  match get_thumb_path imgPath picRoot thumbRoot with
  | none => (fs, .error ())
  | some thumbPath =>
    if fs.existsFile thumbPath then (fs, .ok thumbPath)
    else
      match fs.read imgPath with
      | none => (fs, .error ())
      | some src =>
        match render src with
        | .ok bytes => (fs.write thumbPath bytes, .ok thumbPath)
        | .failAfterWrite bytes => (fs.write thumbPath bytes, .error ())
        | .failBeforeWrite => (fs, .error ())

/-! ## Upload handler (main.py upload_file) and its index-store interaction

Only the interaction with the index store decides the claims about atomicity,
so the embedding records the sequence of store operations the handler issues
alongside its effect, eliding the mime check and the disk write of the upload
(which happen between the two store calls and touch no store state).
-/

/-- One call into the index store. -/
inductive StoreOp where
  | get (hashVal : String)
  | add (hashVal relPath : String)
deriving DecidableEq

/-- Response of the upload handler, as far as the store is concerned. -/
inductive UploadOutcome where
  | conflict (path : String)
  | stored (path : String)
  | serverError
deriving DecidableEq

/-- Embedding of the store interaction of main.upload_file: first
hash_db.get(file_hash); on a hit, answer 409 with the existing path; on a
miss, write the file, compute the perceptual hash, then hash_db.add. An
IntegrityError from add escapes the handler (500). -/
def upload_file (db : HashDB) (fileHash relPath phash : String) :
    HashDB × UploadOutcome × List StoreOp :=
  match db.get fileHash with
  | some existing => (db, .conflict existing, [.get fileHash])
  | none =>
    match db.add fileHash relPath (some phash) with
    | .ok db' => (db', .stored relPath, [.get fileHash, .add fileHash relPath])
    | .error _ => (db, .serverError, [.get fileHash, .add fileHash relPath])

/-! ## Reconciliation scan (main.py scan_files)

A discovered regular file is a relative path plus its readable contents
(none models aiofiles failing to read). The cryptographic digest and the
perceptual hash of PIL plus imagehash are parameters hashFn and phashFn;
phashFn returning none models Image.open raising on undecodable bytes.
The whole per-file body runs inside try/except, so any exception is printed
and the file is skipped.
-/

/-- A regular file discovered under the storage root. -/
structure FileEntry where
  relPath : String
  content : Option String
deriving DecidableEq

/-- Observable reports printed by the scan. -/
inductive LogEntry where
  | duplicate (relPath foundPath : String)
  | scanError (relPath : String)
deriving DecidableEq

/-- One iteration of the scan loop of main.scan_files over a discovered file:
skip disallowed extensions; on a read failure log and skip; if the content
hash is already indexed under a different path report the duplicate and add
nothing; if it is absent decode and insert, where a decode failure is caught
by the surrounding except and drops the entry. State: (db, count_added, log). -/
def scanStep (hashFn : String → String) (phashFn : String → Option String)
    (st : HashDB × Nat × List LogEntry) (f : FileEntry) : HashDB × Nat × List LogEntry :=
  let db := st.1
  let cnt := st.2.1
  let log := st.2.2
  if is_allowed_ext (suffixOf f.relPath) then
    match f.content with
    | none => (db, cnt, log ++ [.scanError f.relPath])
    | some c =>
      match db.get (hashFn c) with
      | some foundPath =>
        if foundPath == f.relPath then (db, cnt, log)
        else (db, cnt, log ++ [.duplicate f.relPath foundPath])
      | none =>
        match phashFn c with
        | none => (db, cnt, log ++ [.scanError f.relPath])
        | some ph =>
          match db.add (hashFn c) f.relPath (some ph) with
          | .ok db' => (db', cnt + 1, log)
          | .error _ => (db, cnt, log ++ [.scanError f.relPath])
  else (db, cnt, log)

/-- Fold of the scan loop over the discovered files, from a given state. -/
def scanFold (hashFn : String → String) (phashFn : String → Option String)
    (st : HashDB × Nat × List LogEntry) (files : List FileEntry) :
    HashDB × Nat × List LogEntry :=
  files.foldl (scanStep hashFn phashFn) st

/-- Embedding of main.scan_files: walk the discovered files with count_added
starting at zero and an empty log. -/
def scan_files (hashFn : String → String) (phashFn : String → Option String)
    (db : HashDB) (files : List FileEntry) : HashDB × Nat × List LogEntry :=
  scanFold hashFn phashFn (db, 0, []) files

/-! ## Helper lemmas about the path model -/

theorem lastIdxOf_eq_none {c : Char} {l : List Char} (h : lastIdxOf c l = none) : c ∉ l := by
  induction l with
  | nil => simp
  | cons a as ih =>
    unfold lastIdxOf at h
    cases h2 : lastIdxOf c as with
    | some i => rw [h2] at h; cases h
    | none =>
      rw [h2] at h
      by_cases ha : (a == c) = true
      · simp [ha] at h
      · intro hm
        rcases List.mem_cons.mp hm with hm | hm
        · exact ha (by simp [hm])
        · exact ih h2 hm

theorem lastIdxOf_not_mem_drop {c : Char} {l : List Char} {i : Nat}
    (h : lastIdxOf c l = some i) : c ∉ l.drop (i + 1) := by
  induction l generalizing i with
  | nil => simp [lastIdxOf] at h
  | cons a as ih =>
    unfold lastIdxOf at h
    cases h2 : lastIdxOf c as with
    | some j =>
      rw [h2] at h
      cases h
      simpa using ih h2
    | none =>
      rw [h2] at h
      by_cases ha : (a == c) = true
      · simp [ha] at h
        cases h
        simpa using lastIdxOf_eq_none h2
      · simp [ha] at h

theorem withSuffix_pathSuffix_append (name t : List Char) :
    withSuffix name (pathSuffix name ++ t) = name ++ t := by
  unfold withSuffix pathSuffix
  cases h : lastIdxOf '.' name with
  | none => simp
  | some i =>
    by_cases hc : 0 < i ∧ i + 1 < name.length
    · simp only [if_pos hc]
      rw [← List.append_assoc, List.take_append_drop]
    · simp only [if_neg hc]
      rw [List.nil_append]

theorem splitLastSlash_append (p : List Char) :
    (splitLastSlash p).1 ++ (splitLastSlash p).2 = p := by
  unfold splitLastSlash
  cases h : lastIdxOf '/' p with
  | none => simp
  | some i => simp [List.take_append_drop]

theorem withPngSuffix_eq_append {p l : List Char} (h : withPngSuffix p = some l) :
    l = p ++ pngExt := by
  unfold withPngSuffix at h
  by_cases h2 : (splitLastSlash p).2 = []
  · simp [h2] at h
  · rw [if_neg h2] at h
    cases h
    rw [withSuffix_pathSuffix_append, ← List.append_assoc, splitLastSlash_append]

theorem listStartsWith_drop {pre l : List Char} (h : listStartsWith pre l = true) :
    l = pre ++ l.drop pre.length := by
  induction pre generalizing l with
  | nil => simp
  | cons a as ih =>
    cases l with
    | nil => simp [listStartsWith] at h
    | cons b bs =>
      unfold listStartsWith at h
      rw [Bool.and_eq_true] at h
      obtain ⟨h1, h2⟩ := h
      have hab : a = b := by simpa using h1
      subst hab
      have := ih h2
      simpa using this

theorem relative_to_eq {img root rel : String} (h : relative_to img root = some rel) :
    img.data = (root.data ++ ['/']) ++ rel.data := by
  unfold relative_to at h
  by_cases hp : listStartsWith (root.data ++ ['/']) img.data = true
  · rw [if_pos hp] at h
    cases h
    have hd := listStartsWith_drop hp
    have hlen : (root.data ++ ['/']).length = root.data.length + 1 := by simp
    rw [hlen] at hd
    exact hd
  · rw [if_neg hp] at h
    cases h

theorem get_thumb_path_some {img root troot t : String}
    (h : get_thumb_path img root troot = some t) :
    ∃ rel : String, relative_to img root = some rel ∧
      t.data = troot.data ++ '/' :: (rel.data ++ pngExt) := by
  unfold get_thumb_path at h
  split at h
  · cases h
  · rename_i rel hr
    split at h
    · cases h
    · rename_i l hw
      cases h
      exact ⟨rel, hr, by rw [withPngSuffix_eq_append hw]⟩

/-! ## Helper lemmas about the index store -/

theorem hashdb_find_none_of_get_none {db : HashDB} {h : String}
    (hg : db.get h = none) : db.rows.find? (fun r => r.1 == h) = none := by
  unfold HashDB.get at hg
  exact Option.map_eq_none'.mp hg

theorem hashdb_any_false_of_get_none {db : HashDB} {h : String}
    (hg : db.get h = none) : db.rows.any (fun r => r.1 == h) = false := by
  rw [List.any_eq_false]
  intro r hr
  exact List.find?_eq_none.mp (hashdb_find_none_of_get_none hg) r hr

theorem hashdb_add_ok {db : HashDB} {h : String} (rel : String) (ph : Option String)
    (hg : db.get h = none) :
    db.add h rel ph = .ok ⟨db.rows ++ [(h, rel, ph)]⟩ := by
  unfold HashDB.add
  rw [if_neg]
  rw [hashdb_any_false_of_get_none hg]
  simp

theorem hashdb_add_error_of_get_some {db : HashDB} {h p : String} (rel : String)
    (ph : Option String) (hg : db.get h = some p) : db.add h rel ph = .error () := by
  unfold HashDB.add
  rw [if_pos]
  obtain ⟨r, hr, -⟩ := Option.map_eq_some'.mp hg
  have hmem := List.mem_of_find?_eq_some hr
  have hpr : (r.1 == h) = true := by simpa using List.find?_some hr
  exact List.any_eq_true.mpr ⟨r, hmem, hpr⟩

theorem hashdb_get_mono {db db' : HashDB} {k p h rel : String} {ph : Option String}
    (hk : db.get k = some p) (hadd : db.add h rel ph = .ok db') : db'.get k = some p := by
  unfold HashDB.add at hadd
  by_cases hb : db.rows.any (fun r => r.1 == h) = true
  · rw [if_pos hb] at hadd; cases hadd
  · rw [if_neg hb] at hadd
    cases hadd
    unfold HashDB.get at hk ⊢
    rw [List.find?_append]
    obtain ⟨r, hr, hrp⟩ := Option.map_eq_some'.mp hk
    rw [hr]
    simpa using hrp

theorem hashdb_get_add_self {db db' : HashDB} {h : String} {rel : String} {ph : Option String}
    (hg : db.get h = none) (hadd : db.add h rel ph = .ok db') : db'.get h = some rel := by
  rw [hashdb_add_ok rel ph hg] at hadd
  cases hadd
  unfold HashDB.get
  rw [List.find?_append, hashdb_find_none_of_get_none hg]
  simp [List.find?]

theorem hashdb_wf_add {db db' : HashDB} {h rel : String} {ph : Option String}
    (hg : db.get h = none) (hadd : db.add h rel ph = .ok db') (hwf : db.wf) : db'.wf := by
  rw [hashdb_add_ok rel ph hg] at hadd
  cases hadd
  unfold HashDB.wf at hwf ⊢
  rw [List.map_append, List.nodup_append]
  refine ⟨hwf, List.nodup_singleton _, ?_⟩
  intro a ha hb
  have hb2 : a = h := by simpa using hb
  subst hb2
  obtain ⟨r, hr, hr2⟩ := List.mem_map.mp ha
  exact List.find?_eq_none.mp (hashdb_find_none_of_get_none hg) r hr (by simp [hr2])

/-! ## Helper lemma about the filesystem model -/

theorem fs_read_write_self (fs : FS) (p c : String) : (fs.write p c).read p = some c := by
  unfold FS.read FS.write
  simp [List.find?]

/-! ## Helper lemmas about the reconciliation scan -/

theorem scanStep_get_mono (hashFn : String → String) (phashFn : String → Option String)
    (st : HashDB × Nat × List LogEntry) (f : FileEntry) {k p : String}
    (hk : st.1.get k = some p) :
    (scanStep hashFn phashFn st f).1.get k = some p := by
  obtain ⟨db, cnt, log⟩ := st
  unfold scanStep
  by_cases he : is_allowed_ext (suffixOf f.relPath) = true
  · rw [if_pos he]
    cases hc : f.content with
    | none => exact hk
    | some c =>
      simp only []
      cases hg : db.get (hashFn c) with
      | some fp =>
        simp only []
        by_cases hfp : (fp == f.relPath) = true
        · rw [if_pos hfp]; exact hk
        · rw [if_neg hfp]; exact hk
      | none =>
        simp only []
        cases hph : phashFn c with
        | none => exact hk
        | some ph =>
          simp only []
          cases hadd : db.add (hashFn c) f.relPath (some ph) with
          | ok db' => exact hashdb_get_mono hk hadd
          | error e => exact hk
  · rw [if_neg he]; exact hk

theorem scanFold_get_mono (hashFn : String → String) (phashFn : String → Option String)
    (files : List FileEntry) (st : HashDB × Nat × List LogEntry) {k p : String}
    (hk : st.1.get k = some p) :
    (scanFold hashFn phashFn st files).1.get k = some p := by
  induction files generalizing st with
  | nil => exact hk
  | cons f fs ih => exact ih _ (scanStep_get_mono hashFn phashFn st f hk)

theorem scanFold_isSome_mono (hashFn : String → String) (phashFn : String → Option String)
    (files : List FileEntry) (st : HashDB × Nat × List LogEntry) {k : String}
    (hk : (st.1.get k).isSome = true) :
    ((scanFold hashFn phashFn st files).1.get k).isSome = true := by
  obtain ⟨p, hp⟩ := Option.isSome_iff_exists.mp hk
  rw [Option.isSome_iff_exists]
  exact ⟨p, scanFold_get_mono hashFn phashFn files st hp⟩

theorem scanStep_resolves (hashFn : String → String) (phashFn : String → Option String)
    (st : HashDB × Nat × List LogEntry) (f : FileEntry) {c ph : String}
    (he : is_allowed_ext (suffixOf f.relPath) = true)
    (hc : f.content = some c) (hph : phashFn c = some ph) :
    ((scanStep hashFn phashFn st f).1.get (hashFn c)).isSome = true := by
  obtain ⟨db, cnt, log⟩ := st
  unfold scanStep
  rw [if_pos he]
  simp only [hc]
  cases hg : db.get (hashFn c) with
  | some fp =>
    simp only []
    by_cases hfp : (fp == f.relPath) = true
    · rw [if_pos hfp]; simp [hg]
    · rw [if_neg hfp]; simp [hg]
  | none =>
    simp only [hph]
    cases hadd : db.add (hashFn c) f.relPath (some ph) with
    | ok db' => simp [hashdb_get_add_self hg hadd]
    | error e =>
      rw [hashdb_add_ok f.relPath (some ph) hg] at hadd
      cases hadd

theorem scanFold_resolves (hashFn : String → String) (phashFn : String → Option String)
    (files : List FileEntry) (st : HashDB × Nat × List LogEntry) (f : FileEntry) {c ph : String}
    (hf : f ∈ files) (he : is_allowed_ext (suffixOf f.relPath) = true)
    (hc : f.content = some c) (hph : phashFn c = some ph) :
    ((scanFold hashFn phashFn st files).1.get (hashFn c)).isSome = true := by
  induction files generalizing st with
  | nil => cases hf
  | cons g gs ih =>
    rcases List.mem_cons.mp hf with hfg | hf2
    · subst hfg
      exact scanFold_isSome_mono hashFn phashFn gs _
        (scanStep_resolves hashFn phashFn st f he hc hph)
    · exact ih (scanStep hashFn phashFn st g) hf2

theorem scanStep_fixed (hashFn : String → String) (phashFn : String → Option String)
    (db : HashDB) (cnt : Nat) (log : List LogEntry) (f : FileEntry)
    (hres : ∀ c, f.content = some c → is_allowed_ext (suffixOf f.relPath) = true →
        (phashFn c).isSome = true → (db.get (hashFn c)).isSome = true) :
    ∃ log', scanStep hashFn phashFn (db, cnt, log) f = (db, cnt, log') := by
  unfold scanStep
  by_cases he : is_allowed_ext (suffixOf f.relPath) = true
  · rw [if_pos he]
    cases hc : f.content with
    | none => exact ⟨_, rfl⟩
    | some c =>
      simp only []
      cases hg : db.get (hashFn c) with
      | some fp =>
        simp only []
        by_cases hfp : (fp == f.relPath) = true
        · rw [if_pos hfp]; exact ⟨_, rfl⟩
        · rw [if_neg hfp]; exact ⟨_, rfl⟩
      | none =>
        simp only []
        cases hph : phashFn c with
        | none => exact ⟨_, rfl⟩
        | some ph =>
          have := hres c hc he (by simp [hph])
          rw [hg] at this
          cases this
  · rw [if_neg he]; exact ⟨_, rfl⟩

theorem scanFold_fixed (hashFn : String → String) (phashFn : String → Option String)
    (files : List FileEntry) (db : HashDB)
    (hres : ∀ f ∈ files, ∀ c, f.content = some c →
        is_allowed_ext (suffixOf f.relPath) = true →
        (phashFn c).isSome = true → (db.get (hashFn c)).isSome = true) :
    ∀ cnt log, (scanFold hashFn phashFn (db, cnt, log) files).1 = db ∧
      (scanFold hashFn phashFn (db, cnt, log) files).2.1 = cnt := by
  induction files with
  | nil => intro cnt log; exact ⟨rfl, rfl⟩
  | cons f fs ih =>
    intro cnt log
    obtain ⟨log', hstep⟩ := scanStep_fixed hashFn phashFn db cnt log f
      (fun c hc he hp => hres f (List.mem_cons_self f fs) c hc he hp)
    have h1 : scanFold hashFn phashFn (db, cnt, log) (f :: fs) =
        scanFold hashFn phashFn (scanStep hashFn phashFn (db, cnt, log) f) fs := rfl
    rw [h1, hstep]
    exact ih (fun g hg => hres g (List.mem_cons_of_mem f hg)) cnt log'

theorem scanStep_wf (hashFn : String → String) (phashFn : String → Option String)
    (st : HashDB × Nat × List LogEntry) (f : FileEntry) (hwf : st.1.wf) :
    (scanStep hashFn phashFn st f).1.wf := by
  obtain ⟨db, cnt, log⟩ := st
  unfold scanStep
  by_cases he : is_allowed_ext (suffixOf f.relPath) = true
  · rw [if_pos he]
    cases hc : f.content with
    | none => exact hwf
    | some c =>
      simp only []
      cases hg : db.get (hashFn c) with
      | some fp =>
        simp only []
        by_cases hfp : (fp == f.relPath) = true
        · rw [if_pos hfp]; exact hwf
        · rw [if_neg hfp]; exact hwf
      | none =>
        simp only []
        cases hph : phashFn c with
        | none => exact hwf
        | some ph =>
          simp only []
          cases hadd : db.add (hashFn c) f.relPath (some ph) with
          | ok db' => exact hashdb_wf_add hg hadd hwf
          | error e => exact hwf
  · rw [if_neg he]; exact hwf

theorem scanFold_wf (hashFn : String → String) (phashFn : String → Option String)
    (files : List FileEntry) (st : HashDB × Nat × List LogEntry) (hwf : st.1.wf) :
    (scanFold hashFn phashFn st files).1.wf := by
  induction files generalizing st with
  | nil => exact hwf
  | cons f fs ih => exact ih _ (scanStep_wf hashFn phashFn st f hwf)

/-! ## Helper lemma about the similarity loop -/

theorem similarLoop_mem (q : Nat) (relPath : String) (entries : List (String × String))
    (d : Nat) (p : String) :
    (d, p) ∈ similarLoop q relPath entries ↔
      ∃ phs, (phs, p) ∈ entries ∧ p ≠ relPath ∧
        d = hammingDist q (hexToNat phs) ∧ d ≤ 10 := by
  induction entries with
  | nil => simp [similarLoop]
  | cons e rest ih =>
    obtain ⟨ph, rel⟩ := e
    unfold similarLoop
    by_cases h1 : (rel == relPath) = true
    · have hrel : rel = relPath := by simpa using h1
      rw [if_pos h1, ih]
      constructor
      · rintro ⟨phs, hm, hp, hd, hle⟩
        exact ⟨phs, List.mem_cons_of_mem _ hm, hp, hd, hle⟩
      · rintro ⟨phs, hm, hp, hd, hle⟩
        rcases List.mem_cons.mp hm with hm | hm
        · obtain ⟨hphs, hps⟩ : phs = ph ∧ p = rel := by simpa using hm
          exact absurd (hps.trans hrel) hp
        · exact ⟨phs, hm, hp, hd, hle⟩
    · have hrel : rel ≠ relPath := by simpa using h1
      rw [if_neg h1]
      by_cases h2 : hammingDist q (hexToNat ph) ≤ 10
      · rw [if_pos h2]
        constructor
        · intro hm
          rcases List.mem_cons.mp hm with hm | hm
          · obtain ⟨hd, hp⟩ : d = hammingDist q (hexToNat ph) ∧ p = rel := by simpa using hm
            exact ⟨ph, by rw [hp]; exact List.mem_cons_self _ _, hp ▸ hrel, hd, hd ▸ h2⟩
          · obtain ⟨phs, hm2, hp, hd, hle⟩ := ih.mp hm
            exact ⟨phs, List.mem_cons_of_mem _ hm2, hp, hd, hle⟩
        · rintro ⟨phs, hm, hp, hd, hle⟩
          rcases List.mem_cons.mp hm with hm | hm
          · obtain ⟨hphs, hps⟩ : phs = ph ∧ p = rel := by simpa using hm
            rw [List.mem_cons]
            left
            rw [hd, hphs, hps]
          · exact List.mem_cons_of_mem _ (ih.mpr ⟨phs, hm, hp, hd, hle⟩)
      · rw [if_neg h2, ih]
        constructor
        · rintro ⟨phs, hm, hp, hd, hle⟩
          exact ⟨phs, List.mem_cons_of_mem _ hm, hp, hd, hle⟩
        · rintro ⟨phs, hm, hp, hd, hle⟩
          rcases List.mem_cons.mp hm with hm | hm
          · obtain ⟨hphs, hps⟩ : phs = ph ∧ p = rel := by simpa using hm
            rw [hphs] at hd
            exact absurd (hd ▸ hle) h2
          · exact ⟨phs, hm, hp, hd, hle⟩

/-! ## Helper lemmas about basename and splitext -/

theorem slash_not_mem_basename (p : List Char) : '/' ∉ basename p := by
  unfold basename splitLastSlash
  cases h : lastIdxOf '/' p with
  | none => simpa using lastIdxOf_eq_none h
  | some i => simpa using lastIdxOf_not_mem_drop h

theorem splitext_fst_mem {p : List Char} {c : Char} (h : c ∈ (splitext p).1) : c ∈ p := by
  unfold splitext at h
  cases h2 : lastIdxOf '.' p with
  | none => rw [h2] at h; exact h
  | some i =>
    simp only [h2] at h
    by_cases hc : ((p.take i).any (fun c => !(c == '.'))) = true
    · rw [if_pos hc] at h; exact List.mem_of_mem_take h
    · rw [if_neg hc] at h; exact h

theorem splitext_snd_mem {p : List Char} {c : Char} (h : c ∈ (splitext p).2) : c ∈ p := by
  unfold splitext at h
  cases h2 : lastIdxOf '.' p with
  | none => rw [h2] at h; cases h
  | some i =>
    simp only [h2] at h
    by_cases hc : ((p.take i).any (fun c => !(c == '.'))) = true
    · rw [if_pos hc] at h; exact List.mem_of_mem_drop h
    · rw [if_neg hc] at h; cases h

/-! ## Claim C1 -/

/-- C1: once a content hash is stored, a second add of the same hash with a
different path does not silently overwrite the authoritative path: the insert
reports a conflict (the primary key violation) and leaves the store unchanged,
so a subsequent get of that hash still returns the originally stored path. -/
theorem add_conflict_keeps_original (db : HashDB) (h p p' : String) (ph : Option String)
    (hget : db.get h = some p) :
    db.add h p' ph = .error () ∧ db.get h = some p :=
  ⟨hashdb_add_error_of_get_some p' ph hget, hget⟩

/-- Witness for C1 at a concrete one-row store. -/
theorem add_conflict_keeps_original_witness :
    (HashDB.mk [("h1", "orig.jpg", none)]).add "h1" "other.jpg" none = .error () ∧
      (HashDB.mk [("h1", "orig.jpg", none)]).get "h1" = some "orig.jpg" :=
  add_conflict_keeps_original (HashDB.mk [("h1", "orig.jpg", none)]) "h1" "orig.jpg"
    "other.jpg" none (by decide)

/-! ## Claim C2 -/

/-- C2 counterexample: a discovered file with an allowed extension and readable
content whose image data fails to decode (phashFn returns none) is NOT
indexed by the scan: no record at all is created for its content hash (the
claim says a record with an absent perceptual hash is still inserted), and the
scan only logs the per-file error. -/
theorem scan_decode_failure_drops_entry :
    (scan_files id (fun _ => none) (HashDB.mk []) [FileEntry.mk "a.jpg" (some "BYTES")]).1.rows
        = [] ∧
      (scan_files id (fun _ => none) (HashDB.mk []) [FileEntry.mk "a.jpg" (some "BYTES")]).2.2
        = [LogEntry.scanError "a.jpg"] := by
  decide

/-- C2 amended: when a discovered file with an allowed extension and readable
content has an unindexed content hash and its image data fails to decode, the
per-file exception handler logs the error and skips the file entirely; no
record (with or without a perceptual hash) is inserted and the count of added
entries does not change. -/
theorem scan_decode_failure_skips_file (hashFn : String → String)
    (phashFn : String → Option String) (db : HashDB) (cnt : Nat) (log : List LogEntry)
    (f : FileEntry) (c : String)
    (he : is_allowed_ext (suffixOf f.relPath) = true)
    (hc : f.content = some c)
    (hg : db.get (hashFn c) = none)
    (hph : phashFn c = none) :
    scanStep hashFn phashFn (db, cnt, log) f = (db, cnt, log ++ [.scanError f.relPath]) := by
  unfold scanStep
  rw [if_pos he]
  simp only [hc, hg, hph]

/-- Witness for the amended C2 at a concrete scan state. -/
theorem scan_decode_failure_skips_file_witness :
    scanStep id (fun _ => none) (HashDB.mk [], 0, []) (FileEntry.mk "a.jpg" (some "BYTES"))
      = (HashDB.mk [], 0, [LogEntry.scanError "a.jpg"]) :=
  scan_decode_failure_skips_file id (fun _ => none) (HashDB.mk []) 0 []
    (FileEntry.mk "a.jpg" (some "BYTES")) "BYTES" (by decide) rfl (by decide) rfl

/-! ## Claim C3 -/

/-- C3: when the scan discovers a file (allowed extension, readable content)
whose content hash is already indexed under a different path, that step
reports the duplicate in the log and changes nothing else; moreover, for the
whole rest of any scan the lookup of that hash keeps returning the
pre-existing authoritative path, and the at-most-one-record-per-hash
invariant is preserved by any scan. -/
theorem scan_duplicate_detection (hashFn : String → String)
    (phashFn : String → Option String) (db : HashDB) (cnt : Nat) (log : List LogEntry)
    (f : FileEntry) (c p : String)
    (he : is_allowed_ext (suffixOf f.relPath) = true)
    (hc : f.content = some c)
    (hg : db.get (hashFn c) = some p)
    (hne : p ≠ f.relPath) :
    scanStep hashFn phashFn (db, cnt, log) f
        = (db, cnt, log ++ [.duplicate f.relPath p]) ∧
      (∀ files cnt' log',
        (scanFold hashFn phashFn (db, cnt', log') files).1.get (hashFn c) = some p) ∧
      (db.wf → ∀ files cnt' log',
        (scanFold hashFn phashFn (db, cnt', log') files).1.wf) := by
  refine ⟨?_, ?_, ?_⟩
  · unfold scanStep
    rw [if_pos he]
    simp only [hc, hg]
    rw [if_neg]
    simp [hne]
  · intro files cnt' log'
    exact scanFold_get_mono hashFn phashFn files (db, cnt', log') hg
  · intro hwf files cnt' log'
    exact scanFold_wf hashFn phashFn files (db, cnt', log') hwf

/-- Witness for C3 at a concrete store holding the hash under another path. -/
theorem scan_duplicate_detection_witness :
    scanStep id (fun _ => some "ff") (HashDB.mk [("BYTES", "orig.jpg", some "ff")], 0, [])
        (FileEntry.mk "copy.jpg" (some "BYTES"))
        = (HashDB.mk [("BYTES", "orig.jpg", some "ff")], 0,
            [LogEntry.duplicate "copy.jpg" "orig.jpg"]) ∧
      (∀ files cnt' log',
        (scanFold id (fun _ => some "ff")
          (HashDB.mk [("BYTES", "orig.jpg", some "ff")], cnt', log') files).1.get "BYTES"
          = some "orig.jpg") ∧
      ((HashDB.mk [("BYTES", "orig.jpg", some "ff")]).wf → ∀ files cnt' log',
        (scanFold id (fun _ => some "ff")
          (HashDB.mk [("BYTES", "orig.jpg", some "ff")], cnt', log') files).1.wf) :=
  scan_duplicate_detection id (fun _ => some "ff")
    (HashDB.mk [("BYTES", "orig.jpg", some "ff")]) 0 []
    (FileEntry.mk "copy.jpg" (some "BYTES")) "BYTES" "orig.jpg"
    (by decide) rfl (by decide) (by decide)

/-! ## Claim C4 -/

/-- C4 counterexample: it is not true that after the first run every
discovered file resolves via lookup; a readable file with an allowed
extension whose image data fails to decode is skipped without being indexed,
so its content hash still misses after the first run. -/
theorem scan_first_run_leaves_unresolved_hash :
    (scan_files id (fun _ => none) (HashDB.mk []) [FileEntry.mk "a.jpg" (some "BYTES")]).1.get
        "BYTES" = none ∧
      is_allowed_ext (suffixOf "a.jpg") = true := by
  decide

/-- C4 amended: the scan is idempotent in its effect on the store: a second
run over the same files starting from the store produced by the first run
changes nothing and inserts zero new records. (Every file that can be
inserted resolves via lookup after the first run; files that fail to read or
decode are skipped by both runs without being indexed.) -/
theorem scan_files_idempotent (hashFn : String → String)
    (phashFn : String → Option String) (db : HashDB) (files : List FileEntry) :
    (scan_files hashFn phashFn (scan_files hashFn phashFn db files).1 files).1
        = (scan_files hashFn phashFn db files).1 ∧
      (scan_files hashFn phashFn (scan_files hashFn phashFn db files).1 files).2.1 = 0 := by
  have hres : ∀ f ∈ files, ∀ c, f.content = some c →
      is_allowed_ext (suffixOf f.relPath) = true → (phashFn c).isSome = true →
      (((scan_files hashFn phashFn db files).1).get (hashFn c)).isSome = true := by
    intro f hf c hc he hp
    obtain ⟨ph, hph⟩ := Option.isSome_iff_exists.mp hp
    exact scanFold_resolves hashFn phashFn files (db, 0, []) f hf he hc hph
  exact scanFold_fixed hashFn phashFn files _ hres 0 []

/-! ## Claim C5 -/

/-- C5: when the seed path has a stored perceptual hash, find_similar_to
returns exactly the (distance, path) pairs over the stored perceptual hashes
whose Hamming distance to the seed hash is at most the threshold 10,
excluding the seed path itself, ordered ascending by distance with ties
broken by path order. -/
theorem find_similar_to_spec (db : HashDB) (path ph : String) (l : List (Nat × String))
    (hph : db.get_phash_by_path path = some ph)
    (hl : find_similar_to db path = .ok l) :
    (∀ d p, (d, p) ∈ l ↔ ∃ phs, (phs, p) ∈ db.get_all_phashes ∧ p ≠ path ∧
        d = hammingDist (hexToNat ph) (hexToNat phs) ∧ d ≤ 10) ∧
      List.Sorted tupleLe l := by
  unfold find_similar_to at hl
  simp only [hph] at hl
  by_cases hne : (ph == "") = true
  · rw [if_pos hne] at hl
    cases hl
  · rw [if_neg hne] at hl
    cases hl
    constructor
    · intro d p
      rw [(List.perm_insertionSort tupleLe _).mem_iff]
      exact similarLoop_mem (hexToNat ph) path db.get_all_phashes d p
    · exact List.sorted_insertionSort tupleLe _

/-- Witness for C5 at a concrete store: the seed a at hash 00 is at distance
1 from b (hash 01) and distance 8 from c (hash ff); the row d without a
perceptual hash is ignored. -/
theorem find_similar_to_spec_witness :
    (∀ d p, (d, p) ∈ ([(1, "b"), (8, "c")] : List (Nat × String)) ↔ ∃ phs,
        (phs, p) ∈ (HashDB.mk [("h1", "a", some "00"), ("h2", "b", some "01"),
            ("h3", "c", some "ff"), ("h4", "d", none)]).get_all_phashes ∧
          p ≠ "a" ∧ d = hammingDist (hexToNat "00") (hexToNat phs) ∧ d ≤ 10) ∧
      List.Sorted tupleLe ([(1, "b"), (8, "c")] : List (Nat × String)) :=
  find_similar_to_spec
    (HashDB.mk [("h1", "a", some "00"), ("h2", "b", some "01"),
      ("h3", "c", some "ff"), ("h4", "d", none)])
    "a" "00" [(1, "b"), (8, "c")] (by decide) (by decide)

/-! ## Claim C6 -/

/-- C6 counterexample: ensure_thumbnail saves directly to the final thumbnail
path, not to a temporary location: when the encode fails after part of the
output is written, the call errors AND a partial file is left at the
thumbnail path (the claim says no partial file may remain on failure). -/
theorem ensure_thumbnail_partial_file_left :
    (ensure_thumbnail (fun _ => .failAfterWrite "PART") (FS.mk [("r/a.jpg", "IMG")])
        "r/a.jpg" "r" "t").2 = .error () ∧
      (ensure_thumbnail (fun _ => .failAfterWrite "PART") (FS.mk [("r/a.jpg", "IMG")])
        "r/a.jpg" "r" "t").1.read "t/a.jpg.png" = some "PART" := by
  decide

/-- C6 amended: decode and encode failures propagate to the caller as an
error; a failure before any bytes are written leaves the filesystem
unchanged, but because the rendition is saved directly to the final thumbnail
path (no temporary location plus rename), a failure after a partial write
leaves the partial file at the thumbnail path. -/
theorem ensure_thumbnail_error_behavior (render : String → RenderOutcome) (fs : FS)
    (imgPath picRoot thumbRoot tp src : String)
    (hp : get_thumb_path imgPath picRoot thumbRoot = some tp)
    (hex : fs.existsFile tp = false)
    (hr : fs.read imgPath = some src) :
    (render src = .failBeforeWrite →
      ensure_thumbnail render fs imgPath picRoot thumbRoot = (fs, .error ())) ∧
      (∀ bytes, render src = .failAfterWrite bytes →
        ensure_thumbnail render fs imgPath picRoot thumbRoot
          = (fs.write tp bytes, .error ())) := by
  constructor
  · intro hrender
    unfold ensure_thumbnail
    simp only [hp, hex, hr, hrender]
    simp
  · intro bytes hrender
    unfold ensure_thumbnail
    simp only [hp, hex, hr, hrender]
    simp

/-- Witness for the amended C6 with a decode failure on a concrete filesystem. -/
theorem ensure_thumbnail_error_behavior_witness :
    (((fun _ => RenderOutcome.failBeforeWrite) "IMG") = RenderOutcome.failBeforeWrite →
      ensure_thumbnail (fun _ => .failBeforeWrite) (FS.mk [("r/a.jpg", "IMG")])
        "r/a.jpg" "r" "t" = (FS.mk [("r/a.jpg", "IMG")], .error ())) ∧
      (∀ bytes, ((fun _ => RenderOutcome.failBeforeWrite) "IMG")
          = RenderOutcome.failAfterWrite bytes →
        ensure_thumbnail (fun _ => .failBeforeWrite) (FS.mk [("r/a.jpg", "IMG")])
          "r/a.jpg" "r" "t" = ((FS.mk [("r/a.jpg", "IMG")]).write "t/a.jpg.png" bytes,
            .error ())) :=
  ensure_thumbnail_error_behavior (fun _ => .failBeforeWrite) (FS.mk [("r/a.jpg", "IMG")])
    "r/a.jpg" "r" "t" "t/a.jpg.png" "IMG" (by decide) (by decide) (by decide)

/-! ## Claim C7 -/

/-- C7 counterexample: the upload handler implements insert-only-if-absent as
a separate lookup followed by an insert issued by the caller: on a fresh
store its trace of index-store operations is a get call and then an add call,
two distinct store operations rather than one atomic one. -/
theorem upload_file_lookup_then_insert_trace :
    (upload_file (HashDB.mk []) "h1" "p1.jpg" "ff").2.2
      = [StoreOp.get "h1", StoreOp.add "h1" "p1.jpg"] := by
  decide

/-- C7 amended: upload_file performs lookup-then-insert as two separate store
calls, so two concurrent ingestions of the same bytes can both pass the
lookup; the primary key constraint of the store then makes the second add
fail with an error instead of creating a second record, so the first write
still wins and the original path remains authoritative. -/
theorem upload_race_first_write_wins (db : HashDB) (h p1 p2 ph1 ph2 : String)
    (hg : db.get h = none) :
    (upload_file db h p1 ph1).2.2 = [StoreOp.get h, StoreOp.add h p1] ∧
      ∃ db1, db.add h p1 (some ph1) = .ok db1 ∧
        (upload_file db h p1 ph1).1 = db1 ∧
        (upload_file db h p1 ph1).2.1 = .stored p1 ∧
        db1.get h = some p1 ∧
        db1.add h p2 (some ph2) = .error () := by
  have hadd := hashdb_add_ok p1 (some ph1) hg
  have hget1 := hashdb_get_add_self hg hadd
  refine ⟨?_, ⟨_, hadd, ?_, ?_, hget1, hashdb_add_error_of_get_some p2 (some ph2) hget1⟩⟩
  · unfold upload_file
    simp only [hg, hadd]
  · unfold upload_file
    simp only [hg, hadd]
  · unfold upload_file
    simp only [hg, hadd]

/-- Witness for the amended C7 on an initially empty store. -/
theorem upload_race_first_write_wins_witness :
    (upload_file (HashDB.mk []) "h1" "p1.jpg" "aa").2.2
        = [StoreOp.get "h1", StoreOp.add "h1" "p1.jpg"] ∧
      ∃ db1, (HashDB.mk []).add "h1" "p1.jpg" (some "aa") = .ok db1 ∧
        (upload_file (HashDB.mk []) "h1" "p1.jpg" "aa").1 = db1 ∧
        (upload_file (HashDB.mk []) "h1" "p1.jpg" "aa").2.1 = .stored "p1.jpg" ∧
        db1.get "h1" = some "p1.jpg" ∧
        db1.add "h1" "p2.jpg" (some "bb") = .error () :=
  upload_race_first_write_wins (HashDB.mk []) "h1" "p1.jpg" "p2.jpg" "aa" "bb" (by decide)

/-! ## Claim C8 -/

/-- C8: ensure_thumbnail is idempotent: when the thumbnail already exists at
the mirrored location the call returns that path without touching the source
(the result does not depend on the render pipeline and the filesystem is
unchanged), and after any successful call a repeated call returns the same
path and changes nothing. -/
theorem ensure_thumbnail_idempotent (render render' : String → RenderOutcome)
    (fs : FS) (imgPath picRoot thumbRoot tp : String)
    (hp : get_thumb_path imgPath picRoot thumbRoot = some tp) :
    (fs.existsFile tp = true →
      ensure_thumbnail render fs imgPath picRoot thumbRoot = (fs, .ok tp)) ∧
      (∀ fs' p, ensure_thumbnail render fs imgPath picRoot thumbRoot = (fs', .ok p) →
        ensure_thumbnail render' fs' imgPath picRoot thumbRoot = (fs', .ok p)) := by
  constructor
  · intro hex
    unfold ensure_thumbnail
    simp only [hp, hex]
    simp
  · intro fs' p hcall
    unfold ensure_thumbnail at hcall ⊢
    simp only [hp] at hcall ⊢
    by_cases hex : fs.existsFile tp = true
    · rw [if_pos hex] at hcall
      have h1 : fs = fs' := congrArg Prod.fst hcall
      have h2 : (Except.ok tp : Except Unit String) = .ok p := congrArg Prod.snd hcall
      subst h1
      injection h2 with h3
      subst h3
      rw [if_pos hex]
    · rw [if_neg hex] at hcall
      cases hread : fs.read imgPath with
      | none => simp only [hread] at hcall; simp at hcall
      | some src =>
        simp only [hread] at hcall
        cases hrender : render src with
        | ok bytes =>
          simp only [hrender] at hcall
          have h1 : fs.write tp bytes = fs' := congrArg Prod.fst hcall
          have h2 : (Except.ok tp : Except Unit String) = .ok p := congrArg Prod.snd hcall
          subst h1
          injection h2 with h3
          subst h3
          have hex2 : (fs.write tp bytes).existsFile tp = true := by
            unfold FS.existsFile
            rw [fs_read_write_self]
            rfl
          rw [if_pos hex2]
        | failAfterWrite bytes => simp only [hrender] at hcall; simp at hcall
        | failBeforeWrite => simp only [hrender] at hcall; simp at hcall

/-- Witness for C8 on a filesystem that already holds the thumbnail. -/
theorem ensure_thumbnail_idempotent_witness :
    ((FS.mk [("t/a.jpg.png", "TH"), ("r/a.jpg", "IMG")]).existsFile "t/a.jpg.png" = true →
      ensure_thumbnail (fun _ => .ok "TH2") (FS.mk [("t/a.jpg.png", "TH"), ("r/a.jpg", "IMG")])
        "r/a.jpg" "r" "t"
        = (FS.mk [("t/a.jpg.png", "TH"), ("r/a.jpg", "IMG")], .ok "t/a.jpg.png")) ∧
      (∀ fs' p, ensure_thumbnail (fun _ => .ok "TH2")
          (FS.mk [("t/a.jpg.png", "TH"), ("r/a.jpg", "IMG")]) "r/a.jpg" "r" "t"
          = (fs', .ok p) →
        ensure_thumbnail (fun _ => .failBeforeWrite) fs' "r/a.jpg" "r" "t" = (fs', .ok p)) :=
  ensure_thumbnail_idempotent (fun _ => .ok "TH2") (fun _ => .failBeforeWrite)
    (FS.mk [("t/a.jpg.png", "TH"), ("r/a.jpg", "IMG")]) "r/a.jpg" "r" "t" "t/a.jpg.png"
    (by decide)

/-! ## Claim C9 -/

/-- C9: get_thumb_path appends ".png" to the full relative path (keeping the
existing suffix) instead of replacing the suffix, so the thumbnail path
mapping is injective: two distinct source paths under the same roots, for
example a.jpg and a.png in one directory, always get distinct thumbnails. -/
theorem get_thumb_path_appends_and_injective :
    (∀ img root troot rel t : String, relative_to img root = some rel →
        get_thumb_path img root troot = some t →
        t.data = troot.data ++ '/' :: (rel.data ++ pngExt)) ∧
      (∀ img1 img2 root troot t1 t2 : String,
        get_thumb_path img1 root troot = some t1 →
        get_thumb_path img2 root troot = some t2 → t1 = t2 → img1 = img2) := by
  constructor
  · intro img root troot rel t hrel ht
    obtain ⟨rel0, hrel0, hdata⟩ := get_thumb_path_some ht
    rw [hrel0] at hrel
    injection hrel with h
    subst h
    exact hdata
  · intro img1 img2 root troot t1 t2 h1 h2 heq
    obtain ⟨rel1, hr1, hd1⟩ := get_thumb_path_some h1
    obtain ⟨rel2, hr2, hd2⟩ := get_thumb_path_some h2
    have hdata : t1.data = t2.data := by rw [heq]
    rw [hd1, hd2] at hdata
    have h3 := List.append_cancel_left hdata
    injection h3 with h3a h4
    have h5 : rel1.data = rel2.data := List.append_cancel_right h4
    have e1 := relative_to_eq hr1
    have e2 := relative_to_eq hr2
    have hi : img1.data = img2.data := by rw [e1, e2, h5]
    cases img1
    cases img2
    exact congrArg String.mk hi

/-- Witness for C9 at concrete roots and source paths. -/
theorem get_thumb_path_appends_and_injective_witness :
    ("t/a.jpg.png" : String).data
        = ("t" : String).data ++ '/' :: (("a.jpg" : String).data ++ pngExt) ∧
      ("r/a.jpg" : String) = "r/a.jpg" :=
  ⟨get_thumb_path_appends_and_injective.1 "r/a.jpg" "r" "t" "a.jpg" "t/a.jpg.png"
      (by decide) (by decide),
    get_thumb_path_appends_and_injective.2 "r/a.jpg" "r/a.jpg" "r" "t"
      "t/a.jpg.png" "t/a.jpg.png" (by decide) (by decide) rfl⟩

/-! ## Claim C10 -/

/-- C10: sanitize_filename always yields a single path component: it takes
the basename, replaces every character outside the kept class by an
underscore, lowercases, and splices the uuid between stem and extension, so
the result contains no slash whatever the input filename. The hypotheses
record two facts about the abstracted pieces: Unicode lowercasing never turns
a non-slash character into a slash, and a uuid4 string (hex digits and
dashes) contains no slash. -/
theorem sanitize_filename_single_component (w : Char → Bool) (lower : Char → Char)
    (uuid original : List Char)
    (hlower : ∀ c, c ≠ '/' → lower c ≠ '/')
    (huuid : '/' ∉ uuid) :
    '/' ∉ sanitize_filename w lower uuid original := by
  unfold sanitize_filename
  intro hm
  simp only [] at hm
  have hbase : '/' ∉ subUnderscore w (basename original) := by
    intro hm2
    obtain ⟨c0, hc0, hc0e⟩ := List.mem_map.mp hm2
    by_cases hk : keepChar w c0 = true
    · rw [if_pos hk] at hc0e
      exact slash_not_mem_basename original (hc0e ▸ hc0)
    · rw [if_neg hk] at hc0e
      exact absurd hc0e (by decide)
  have hlow : '/' ∉ (subUnderscore w (basename original)).map lower := by
    intro hm2
    obtain ⟨c0, hc0, hc0e⟩ := List.mem_map.mp hm2
    exact hlower c0 (fun hc => hbase (hc ▸ hc0)) hc0e
  rcases List.mem_append.mp hm with hm | hm
  · rcases List.mem_append.mp hm with hm | hm
    · exact hlow (splitext_fst_mem hm)
    · rcases List.mem_cons.mp hm with hm | hm
      · exact absurd hm (by decide)
      · exact huuid hm
  · exact hlow (splitext_snd_mem hm)

/-- Witness for C10 on a hostile input filename with traversal components. -/
theorem sanitize_filename_single_component_witness :
    '/' ∉ sanitize_filename (fun _ => false) (fun c => c) ("u1u2" : String).data
      ("../../etc/evil name.jpg" : String).data :=
  sanitize_filename_single_component (fun _ => false) (fun c => c)
    ("u1u2" : String).data ("../../etc/evil name.jpg" : String).data
    (fun _ hc => hc) (by decide)

end Picup
